import Mathlib

/-!
Shallow embedding of the `hiho` repository's vendored terminal libraries:
`third_party/github.com/charmbracelet/lipgloss/style.go` (styled rendering and
horizontal/vertical joining) and
`third_party/github.com/charmbracelet/bubbletea/tea.go` (the event loop and the
raw-input decoder).  Go strings are modelled as byte lists (`GoStr`); the Go
`int` fields that this repository only ever sets to non-negative literals are
modelled as `Nat`.
-/

namespace Lipgloss

/-- A Go string, modelled as its list of bytes. -/
abbrev GoStr := List Nat

/-- `strings.Split(s, "\n")`: split a byte string at every newline byte (0x0a).
Always returns at least one (possibly empty) piece. -/
def splitLines : GoStr → List GoStr
  | [] => [[]]
  | b :: rest =>
    match splitLines rest with
    | l :: ls => if b = 10 then [] :: l :: ls else (b :: l) :: ls
    | [] => [[]]

/-- `strings.Join(lines, "\n")`: interleave a newline byte between pieces. -/
def joinLines : List GoStr → GoStr
  | [] => []
  | [l] => l
  | l :: l2 :: ls => l ++ 10 :: joinLines (l2 :: ls)

/-- The worker of `visibleWidth` from style.go: walk the bytes carrying the
`inEscape` flag; a 0x1b byte enters escape mode, which swallows everything up
to and including the next `m` (0x6d) byte; all other bytes count 1.  (The Go
loop ranges over runes; all inputs considered in the theorems below are
single-byte characters, where runes and bytes coincide.) -/
def visibleWidthGo : Bool → GoStr → Nat
  | _, [] => 0
  | inEscape, b :: rest =>
    if b = 27 then visibleWidthGo true rest
    else if inEscape then
      if b = 109 then visibleWidthGo false rest else visibleWidthGo true rest
    else 1 + visibleWidthGo inEscape rest

/-- `visibleWidth` from style.go: string width ignoring ANSI escape codes. -/
def visibleWidth (s : GoStr) : Nat := visibleWidthGo false s

/-- `Position` from style.go (ignored placeholder argument of the joins). -/
inductive Position where
  | Left
  | Top
deriving DecidableEq, Repr

/-- `Style` from style.go.  `width`, `height`, `marginTop`, `paddingH`,
`paddingV` are Go `int`s that the repository only sets to non-negative
values; they are modelled as `Nat`. -/
structure Style where
  bold : Bool := false
  marginTop : Nat := 0
  fg : GoStr := []
  bg : GoStr := []
  paddingH : Nat := 0
  paddingV : Nat := 0
  border : Bool := false
  width : Nat := 0
  height : Nat := 0
  reverse : Bool := false
deriving DecidableEq, Repr

/-- `NewStyle()` from style.go. -/
def NewStyle : Style := {}

/-- `Style.Width` from style.go. -/
def Style.Width (s : Style) (w : Nat) : Style := { s with width := w }

/-- `Style.Height` from style.go. -/
def Style.Height (s : Style) (h : Nat) : Style := { s with height := h }

/-- `Style.Bold` from style.go. -/
def Style.Bold (s : Style) (enabled : Bool) : Style := { s with bold := enabled }

/-- `Style.MarginTop` from style.go. -/
def Style.MarginTop (s : Style) (lines : Nat) : Style := { s with marginTop := lines }

/-- `Style.Padding` from style.go. -/
def Style.Padding (s : Style) (vertical horizontal : Nat) : Style :=
  { s with paddingV := vertical, paddingH := horizontal }

/-- `Style.Border` from style.go. -/
def Style.Border (s : Style) (enabled : Bool) : Style := { s with border := enabled }

/-- `Style.Reverse` from style.go. -/
def Style.Reverse (s : Style) (enabled : Bool) : Style := { s with reverse := enabled }

/-- `Style.Foreground` from style.go. -/
def Style.Foreground (s : Style) (c : GoStr) : Style := { s with fg := c }

/-- `Style.Background` from style.go. -/
def Style.Background (s : Style) (c : GoStr) : Style := { s with bg := c }

/-- UTF-8 bytes of the border characters used by `Render`. -/
def topLeftB : GoStr := [226, 148, 140]      -- "┌"
def topRightB : GoStr := [226, 148, 144]     -- "┐"
def bottomLeftB : GoStr := [226, 148, 148]   -- "└"
def bottomRightB : GoStr := [226, 148, 152]  -- "┘"
def horizontalB : GoStr := [226, 148, 128]   -- "─"
def verticalB : GoStr := [226, 148, 130]     -- "│"

/-- `strings.Repeat` for a multi-byte unit. -/
def repeatStr (unit : GoStr) (n : Nat) : GoStr :=
  List.flatten (List.replicate n unit)

/-- `Style.Render` from style.go, step for step: top margin, newline split,
horizontal padding, content-width computation, width fixing, height fixing,
ANSI codes, and the bordered / plain assembly. -/
def Style.Render (s : Style) (str : GoStr) : GoStr :=
  let marginStr : GoStr := repeatStr [10] s.marginTop
  let lines := splitLines str
  let padding : GoStr := List.replicate s.paddingH 32
  let lines := lines.map (fun line => padding ++ line ++ padding)
  let contentWidth := s.width
  let contentWidth :=
    if contentWidth = 0 then
      lines.foldl (fun cw line => if line.length > cw then line.length else cw) contentWidth
    else contentWidth
  let lines := lines.map (fun line =>
    if line.length < contentWidth then
      line ++ List.replicate (contentWidth - line.length) 32
    else if line.length > contentWidth ∧ s.width > 0 then
      line.take contentWidth
    else line)
  let lines :=
    if s.height > 0 then
      let lines := lines ++ List.replicate (s.height - lines.length) (List.replicate contentWidth 32)
      if lines.length > s.height then lines.take s.height else lines
    else lines
  let codes : List GoStr :=
    (if s.bold then [[49]] else []) ++                                -- "1"
    (if s.reverse then [[55]] else []) ++                             -- "7"
    (if s.fg ≠ [] then [[51, 56, 59, 53, 59] ++ s.fg] else []) ++     -- "38;5;" + fg
    (if s.bg ≠ [] then [[52, 56, 59, 53, 59] ++ s.bg] else [])        -- "48;5;" + bg
  let ansiStart : GoStr :=
    if codes ≠ [] then [27, 91] ++ List.intercalate [59] codes ++ [109] else []
  let ansiEnd : GoStr := if codes ≠ [] then [27, 91, 48, 109] else []
  let body : GoStr :=
    if s.border then
      (topLeftB ++ repeatStr horizontalB contentWidth ++ topRightB ++ [10]) ++
      List.flatten (lines.map (fun line =>
        verticalB ++ ansiStart ++ line ++ ansiEnd ++ verticalB ++ [10])) ++
      (bottomLeftB ++ repeatStr horizontalB contentWidth ++ bottomRightB)
    else
      joinLines (lines.map (fun line => ansiStart ++ line ++ ansiEnd))
  marginStr ++ body

/-- `JoinVertical` from style.go: newline concatenation. -/
def JoinVertical (_pos : Position) (parts : List GoStr) : GoStr :=
  joinLines parts

/-- One cell of a `JoinHorizontal` row: part `i`'s contribution to row `row`.
Non-final parts are padded with spaces up to that part's own visible width;
the final part is emitted as is (and contributes nothing on missing rows). -/
def joinCell (isLast : Bool) (lines : List GoStr) (w : Nat) (row : Nat) : GoStr :=
  match lines.get? row with
  | some line =>
    line ++
      (if ¬ isLast ∧ visibleWidth line < w then
        List.replicate (w - visibleWidth line) 32
      else [])
  | none => if ¬ isLast then List.replicate w 32 else []

/-- `JoinHorizontal` from style.go: split each part into lines, compute each
part's own maximal visible line width, then concatenate corresponding rows,
padding every part but the last to its own width. -/
def JoinHorizontal (_pos : Position) (parts : List GoStr) : GoStr :=
  if parts = [] then [] else
  let partLines := parts.map splitLines
  let maxLines := partLines.foldl (fun m ls => if ls.length > m then ls.length else m) 0
  let partWidths := partLines.map (fun ls =>
    ls.foldl (fun w line => if visibleWidth line > w then visibleWidth line else w) 0)
  joinLines ((List.range maxLines).map (fun row =>
    List.flatten (((partLines.zip partWidths).enum).map (fun cell =>
      joinCell (cell.1 = parts.length - 1) cell.2.1 cell.2.2 row))))

end Lipgloss

namespace Tea

/-- `MouseEventType` from tea.go. -/
inductive MouseEventType where
  | MouseLeft
  | MouseRight
  | MouseMiddle
  | MouseRelease
  | MouseMotion
  | MouseWheelUp
  | MouseWheelDown
deriving DecidableEq, Repr

/-- The `Msg` values tea.go produces and consumes: `KeyMsg` (its `Type`
string), `MouseMsg`, `WindowSizeMsg` and the private `quitMsg`. -/
inductive Msg where
  | key (t : String)
  | mouse (x y : Int) (t : MouseEventType)
  | windowSize (w h : Int)
  | quitMsg
deriving DecidableEq, Repr

/-- The digit-scanning loops of `parseSGRMouse`: consume leading ASCII digits,
accumulating `acc*10 + digit` as the Go code does, and return the value with
the unconsumed remainder. -/
def takeDigits (acc : Nat) : List Nat → Nat × List Nat
  | [] => (acc, [])
  | b :: rest =>
    if 48 ≤ b ∧ b ≤ 57 then takeDigits (acc * 10 + (b - 48)) rest
    else (acc, b :: rest)

/-- The event-type computation of `parseSGRMouse`: a final `'m'` (0x6d) is
always a release; otherwise bits 0–1 of `cb` pick the button, bit 5 overrides
with motion, and bit 6 overrides with a wheel event whose direction is bit 0. -/
def sgrEventType (cb : Nat) (endChar : Nat) : MouseEventType :=
  if endChar = 109 then MouseEventType.MouseRelease
  else
    let t :=
      match cb &&& 3 with
      | 0 => MouseEventType.MouseLeft
      | 1 => MouseEventType.MouseMiddle
      | 2 => MouseEventType.MouseRight
      | _ => MouseEventType.MouseRelease
    let t := if cb &&& 32 ≠ 0 then MouseEventType.MouseMotion else t
    if cb &&& 64 ≠ 0 then
      (if cb &&& 1 = 0 then MouseEventType.MouseWheelUp else MouseEventType.MouseWheelDown)
    else t

/-- `parseSGRMouse` from tea.go: `ESC [ < Cb ; Cx ; Cy (M|m)`.  Returns the
message and the number of consumed bytes, or `none` (Go: consumed = 0) when
the sequence does not match.  Coordinates are converted to 0-based. -/
def parseSGRMouse (buf : List Nat) : Option (Msg × Nat) :=
  match buf with
  | 27 :: 91 :: 60 :: rest =>
    let p1 := takeDigits 0 rest
    match p1.2 with
    | 59 :: r1 =>
      let p2 := takeDigits 0 r1
      match p2.2 with
      | 59 :: r2 =>
        let p3 := takeDigits 0 r2
        match p3.2 with
        | endChar :: r4 =>
          if endChar = 77 ∨ endChar = 109 then
            some (Msg.mouse ((p2.1 : Int) - 1) ((p3.1 : Int) - 1) (sgrEventType p1.1 endChar),
              buf.length - r4.length)
          else none
        | [] => none
      | _ => none
    | _ => none
  | _ => none

/-- The single-final-byte switch of `parseCSI` (`A/B/C/D/H/F/Z`). -/
def csiSingle (c : Nat) : Option String :=
  match c with
  | 65 => some "up"
  | 66 => some "down"
  | 67 => some "right"
  | 68 => some "left"
  | 72 => some "home"
  | 70 => some "end"
  | 90 => some "shift+tab"
  | _ => none

/-- The modifier-digit switch of `parseCSI`: digits `'2'`–`'8'` select a
prefix, anything else the empty prefix. -/
def csiModPrefix (m : Nat) : String :=
  match m with
  | 50 => "shift+"
  | 51 => "alt+"
  | 52 => "shift+alt+"
  | 53 => "ctrl+"
  | 54 => "shift+ctrl+"
  | 55 => "alt+ctrl+"
  | 56 => "shift+alt+ctrl+"
  | _ => ""

/-- The final-byte switch of the modified-key branch of `parseCSI`
(`A/B/C/D/H/F` only — no `Z` case exists there). -/
def csiModFinal (k : Nat) : Option String :=
  match k with
  | 65 => some "up"
  | 66 => some "down"
  | 67 => some "right"
  | 68 => some "left"
  | 72 => some "home"
  | 70 => some "end"
  | _ => none

/-- The tilde switch of `parseCSI` (`ESC [ N ~`). -/
def csiTilde (c : Nat) : Option String :=
  match c with
  | 50 => some "insert"
  | 51 => some "delete"
  | 53 => some "pgup"
  | 54 => some "pgdown"
  | _ => none

/-- The modified-key branch of `parseCSI` (tea.go lines 273–308): requires at
least six bytes total (`rest` holds the bytes after `buf[2] = c`), the shape
`1 ; mod final`, and a final byte from `csiModFinal`; consumes 6 bytes. -/
def csiMod (c : Nat) (rest : List Nat) : Option (Msg × Nat) :=
  match rest with
  | d3 :: m :: k :: _ =>
    if c = 49 ∧ d3 = 59 then
      match csiModFinal k with
      | some nm => some (Msg.key (csiModPrefix m ++ nm), 6)
      | none => none
    else none
  | _ => none

/-- The tilde branch of `parseCSI` (tea.go lines 310–322): `ESC [ N ~` with
`N` from `csiTilde`; consumes 4 bytes. -/
def csiTildeRes (c : Nat) (rest : List Nat) : Option (Msg × Nat) :=
  match rest with
  | 126 :: _ =>
    match csiTilde c with
    | some nm => some (Msg.key nm, 4)
    | none => none
  | _ => none

/-- `parseCSI` from tea.go.  `none` models Go's `(nil, 0)` (only when the
buffer is shorter than 3 bytes or does not start with `ESC [`); otherwise the
switches run in source order, falling through to `("unknown", 3)`. -/
def parseCSI (buf : List Nat) : Option (Msg × Nat) :=
  match buf with
  | 27 :: 91 :: c :: rest =>
    match csiSingle c with
    | some name => some (Msg.key name, 3)
    | none =>
      match csiMod c rest with
      | some r => some r
      | none =>
        match csiTildeRes c rest with
        | some r => some r
        | none => some (Msg.key "unknown", 3)
  | _ => none

/-- The control-byte switch of `parseInput` (tea.go lines 204–236). -/
def controlKey (b : Nat) : Option String :=
  match b with
  | 9 => some "tab"
  | 10 => some "enter"
  | 13 => some "enter"
  | 1 => some "ctrl+a"
  | 2 => some "ctrl+b"
  | 3 => some "ctrl+c"
  | 4 => some "ctrl+d"
  | 5 => some "ctrl+e"
  | 6 => some "ctrl+f"
  | 11 => some "ctrl+k"
  | 12 => some "ctrl+l"
  | 14 => some "ctrl+n"
  | 15 => some "ctrl+o"
  | 16 => some "ctrl+p"
  | 21 => some "ctrl+u"
  | 23 => some "ctrl+w"
  | 127 => some "backspace"
  | _ => none

/-- Go's `string(b)` for a byte `b < 0x80`: the one-character string. -/
def byteStr (b : Nat) : String := String.mk [Char.ofNat b]

/-- The SGR-mouse attempt of `parseInput`'s loop: tried when `buf[i+1] = '['`
and `buf[i+2] = '<'`. -/
def sgrGuard (b : Nat) (rest : List Nat) : Option (Msg × Nat) :=
  match rest with
  | 91 :: 60 :: _ => parseSGRMouse (b :: rest)
  | _ => none

/-- The CSI attempt of the loop: tried when `buf[i+1] = '['`. -/
def csiGuard (b : Nat) (rest : List Nat) : Option (Msg × Nat) :=
  match rest with
  | 91 :: _ => parseCSI (b :: rest)
  | _ => none

/-- One iteration of `parseInput`'s scanning loop (tea.go lines 166–243) at a
byte `b` with remainder `rest`: the message dispatched by this iteration (if
any) and the buffer left for the next iteration.  Each branch consumes exactly
the bytes the Go code consumes. -/
def parseStep (b : Nat) (rest : List Nat) : Option Msg × List Nat :=
  if b = 27 then
    -- SGR mouse attempt: requires `buf[i+1] = '['` and `buf[i+2] = '<'`
    match sgrGuard b rest with
    | some (msg, consumed) => (some msg, List.drop consumed (b :: rest))
    | none =>
      -- CSI attempt: requires `buf[i+1] = '['`
      match csiGuard b rest with
      | some (msg, consumed) => (some msg, List.drop consumed (b :: rest))
      | none =>
        -- Alt+key: ESC followed by a byte other than '[' and 'O'
        match rest with
        | c :: rest' =>
          if c ≠ 91 ∧ c ≠ 79 then
            (some (Msg.key ("alt+" ++ byteStr c)), rest')
          else
            (some (Msg.key "esc"), rest)
        | [] => (some (Msg.key "esc"), rest)
  else
    match controlKey b with
    | some name => (some (Msg.key name), rest)
    | none =>
      if 32 ≤ b ∧ b < 127 then (some (Msg.key (byteStr b)), rest)
      else (none, rest)

/-- The scanning loop of `parseInput`, with the remaining buffer as the scan
position and a fuel counter (always at least the buffer length, so the fuel
never runs out; see `parseInputGo_fuel`). -/
def parseInputGo : Nat → List Nat → List Msg
  | 0, _ => []
  | _ + 1, [] => []
  | fuel + 1, b :: rest =>
    match (parseStep b rest).1 with
    | some msg => msg :: parseInputGo fuel (parseStep b rest).2
    | none => parseInputGo fuel (parseStep b rest).2

/-- `parseInput` from tea.go: decode a chunk of raw input bytes into messages. -/
def parseInput (buf : List Nat) : List Msg := parseInputGo buf.length buf

end Tea

namespace Tea

/-- The `Model` interface of tea.go, shallowly: `update` returns the new model
and the message the returned command would produce (`none` models both a nil
command and a command returning a nil message — in either case the loop makes
no further use of it); `init` likewise gives the message of the `Init`
command, if any; `view` is the rendered frame. -/
structure TeaModel (σ : Type) where
  init : σ → Option Msg
  update : σ → Msg → σ × Option Msg
  view : σ → Lipgloss.GoStr

/-- `Program` from tea.go (the model value itself is passed separately). -/
structure Program where
  altScreen : Bool := false
  mouseEnabled : Bool := false
deriving DecidableEq, Repr

/-- Outcome of `term.MakeRaw`. -/
inductive RawModeResult where
  | ok
  | fail (e : String)
deriving DecidableEq, Repr

/-- One result of the input-reader goroutine's `os.Stdin.Read` call: a chunk
of bytes, or a read error. -/
inductive ReadEvent where
  | chunk (bs : List Nat)
  | readError (e : String)
deriving DecidableEq, Repr

/-- Whether a read event is an error. -/
def ReadEvent.isError : ReadEvent → Bool
  | .chunk _ => false
  | .readError _ => true

/-- The messages the input-reader goroutine sends over the channel for a given
sequence of read results (tea.go lines 109–130): each chunk is decoded with
`parseInput` and its messages forwarded; on the first read error the goroutine
returns, sending nothing further — the error itself is never sent. -/
def producerMsgs : List ReadEvent → List Msg
  | [] => []
  | .chunk bs :: rest => parseInput bs ++ producerMsgs rest
  | .readError _ :: _ => []

/-- Everything `Run` itself writes to the terminal, as abstract tokens. -/
inductive Emission where
  | enterAltScreen      -- "\033[?1049h"
  | exitAltScreen       -- "\033[?1049l"
  | enableMouseClick    -- "\033[?1000h"
  | disableMouseClick   -- "\033[?1000l"
  | enableMouseSGR      -- "\033[?1006h"
  | disableMouseSGR     -- "\033[?1006l"
  | hideCursor          -- "\033[?25l"
  | showCursor          -- "\033[?25h"
  | clearScreen         -- "\033[H\033[2J"
  | view (s : Lipgloss.GoStr)
  | restoreTermMode     -- deferred term.Restore
deriving DecidableEq, Repr

/-- How `Run` finishes on a given execution: return with the raw-mode error,
return normally after a quit command, or never return (the loop blocks on the
message channel with no message ever arriving). -/
inductive RunOutcome (σ : Type) where
  | rawModeError (e : String)
  | quit (final : σ)
  | blocked
deriving DecidableEq, Repr

/-- The main event loop of `Run` (tea.go lines 144–159): each iteration clears
the screen, prints the view, then blocks for a message; `Update` runs and, if
it returned a command producing `quitMsg`, the loop returns.  An exhausted
message list means the receive blocks forever. -/
def runLoop {σ : Type} (M : TeaModel σ) : σ → List Msg → RunOutcome σ × List Emission
  | m, msgs =>
    let frame := [Emission.clearScreen, Emission.view (M.view m)]
    match msgs with
    | [] => (RunOutcome.blocked, frame)
    | msg :: rest =>
      let (m2, cmd) := M.update m msg
      match cmd with
      | some Msg.quitMsg => (RunOutcome.quit m2, frame)
      | _ =>
        let (o, tr) := runLoop M m2 rest
        (o, frame ++ tr)

/-- The escape sequences `Run` emits during setup after raw mode succeeded
(tea.go lines 63–78), in source order: alt screen, mouse enables, hide
cursor. -/
def runSetup (p : Program) : List Emission :=
  (if p.altScreen then [Emission.enterAltScreen] else []) ++
  (if p.mouseEnabled then [Emission.enableMouseClick, Emission.enableMouseSGR] else []) ++
  [Emission.hideCursor]

/-- The deferred teardown writes of `Run`, in the LIFO order Go executes the
`defer`s registered at lines 61–79: show cursor, mouse disables, leave alt
screen, restore the terminal mode. -/
def runTeardown (p : Program) : List Emission :=
  [Emission.showCursor] ++
  (if p.mouseEnabled then [Emission.disableMouseSGR, Emission.disableMouseClick] else []) ++
  (if p.altScreen then [Emission.exitAltScreen] else []) ++
  [Emission.restoreTermMode]

/-- The model state when the loop starts (tea.go lines 132–141): the initial
window-size update, then the `Init` command's message (its own returned
command is discarded in both places). -/
def runInitState {σ : Type} (M : TeaModel σ) (m0 : σ) (w h : Int) : σ :=
  let m1 := (M.update m0 (Msg.windowSize w h)).1
  match M.init m1 with
  | some msg => (M.update m1 msg).1
  | none => m1

/-- Combine the loop result with setup and teardown: the deferred teardown
runs exactly when `Run` returns, i.e. on the quit path; a blocked loop keeps
only what was already written. -/
def runAssemble {σ : Type} (p : Program) (lp : RunOutcome σ × List Emission) :
    RunOutcome σ × List Emission :=
  match lp.1 with
  | RunOutcome.quit mf => (RunOutcome.quit mf, runSetup p ++ lp.2 ++ runTeardown p)
  | _ => (lp.1, runSetup p ++ lp.2)

/-- `Run` from tea.go: raw mode first (failure returns the wrapped error
before anything was written); then the enable sequences and their deferred
teardowns (run in LIFO order if and only if `Run` returns); the initial
window-size update and the `Init` command; then the loop over the messages the
reader goroutine produces.  The second component is the complete list of
emissions this execution ever writes. -/
def run {σ : Type} (M : TeaModel σ) (m0 : σ) (p : Program) (raw : RawModeResult)
    (w h : Int) (events : List ReadEvent) : RunOutcome σ × List Emission :=
  match raw with
  | .fail e => (RunOutcome.rawModeError ("failed to enter raw mode: " ++ e), [])
  | .ok => runAssemble p (runLoop M (runInitState M m0 w h) (producerMsgs events))

end Tea

namespace Lipgloss

theorem splitLines_ne_nil (s : GoStr) : splitLines s ≠ [] := by
  cases s with
  | nil => simp [splitLines]
  | cons b rest =>
    unfold splitLines
    cases h : splitLines rest with
    | nil => simp
    | cons l ls => by_cases hb : b = 10 <;> simp [hb]

theorem splitLines_cons (b : Nat) (rest : GoStr) (l : GoStr) (ls : List GoStr)
    (h : splitLines rest = l :: ls) :
    splitLines (b :: rest) = if b = 10 then [] :: l :: ls else (b :: l) :: ls := by
  conv_lhs => rw [splitLines]
  rw [h]

theorem mem_splitLines_not_newline (s : GoStr) :
    ∀ l ∈ splitLines s, 10 ∉ l := by
  induction s with
  | nil => intro l hl; simp [splitLines] at hl; simp [hl]
  | cons b rest ih =>
    intro l hl
    obtain ⟨l0, ls, h⟩ : ∃ l0 ls, splitLines rest = l0 :: ls := by
      cases h : splitLines rest with
      | nil => exact absurd h (splitLines_ne_nil rest)
      | cons x xs => exact ⟨x, xs, rfl⟩
    rw [splitLines_cons b rest l0 ls h] at hl
    by_cases hb : b = 10
    · simp [hb] at hl
      rcases hl with hl | hl | hl
      · simp [hl]
      · exact ih l (by rw [h]; simp [hl])
      · exact ih l (by rw [h]; simp [hl])
    · simp [hb] at hl
      rcases hl with hl | hl
      · subst hl
        intro hmem
        rcases List.mem_cons.mp hmem with h10 | h10
        · exact hb h10.symm
        · exact ih l0 (by rw [h]; simp) h10
      · exact ih l (by rw [h]; simp [hl])

theorem splitLines_no_newline (l : GoStr) (h : 10 ∉ l) : splitLines l = [l] := by
  induction l with
  | nil => simp [splitLines]
  | cons b rest ih =>
    have hb : b ≠ 10 := fun hb => h (by simp [hb])
    have hrest : 10 ∉ rest := fun hr => h (by simp [hr])
    rw [splitLines_cons b rest rest [] (ih hrest)]
    simp [hb]

theorem splitLines_append_newline (l r : GoStr) (h : 10 ∉ l) :
    splitLines (l ++ 10 :: r) = l :: splitLines r := by
  induction l with
  | nil =>
    obtain ⟨l0, ls, hr⟩ : ∃ l0 ls, splitLines r = l0 :: ls := by
      cases hr : splitLines r with
      | nil => exact absurd hr (splitLines_ne_nil r)
      | cons x xs => exact ⟨x, xs, rfl⟩
    simp only [List.nil_append]
    rw [splitLines_cons 10 r l0 ls hr]
    simp [hr]
  | cons b rest ih =>
    have hb : b ≠ 10 := fun hb => h (by simp [hb])
    have hrest : 10 ∉ rest := fun hr => h (by simp [hr])
    have ih' := ih hrest
    obtain ⟨l0, ls, hr⟩ : ∃ l0 ls, splitLines (rest ++ 10 :: r) = l0 :: ls := by
      cases hr : splitLines (rest ++ 10 :: r) with
      | nil => exact absurd hr (splitLines_ne_nil _)
      | cons x xs => exact ⟨x, xs, rfl⟩
    simp only [List.cons_append]
    rw [splitLines_cons b (rest ++ 10 :: r) l0 ls hr]
    rw [ih'] at hr
    injection hr with hr1 hr2
    simp [hb, hr1, hr2]

theorem splitLines_joinLines (ls : List GoStr) (hne : ls ≠ [])
    (h : ∀ l ∈ ls, 10 ∉ l) : splitLines (joinLines ls) = ls := by
  induction ls with
  | nil => exact absurd rfl hne
  | cons l rest ih =>
    cases rest with
    | nil =>
      show splitLines (joinLines [l]) = [l]
      unfold joinLines
      exact splitLines_no_newline l (h l (by simp))
    | cons l2 ls2 =>
      show splitLines (joinLines (l :: l2 :: ls2)) = l :: l2 :: ls2
      unfold joinLines
      rw [splitLines_append_newline _ _ (h l (by simp))]
      rw [ih (by simp) (fun x hx => h x (by simp [hx]))]

theorem joinLines_splitLines (s : GoStr) : joinLines (splitLines s) = s := by
  induction s with
  | nil => simp [splitLines, joinLines]
  | cons b rest ih =>
    obtain ⟨l, ls, h⟩ : ∃ l ls, splitLines rest = l :: ls := by
      cases h : splitLines rest with
      | nil => exact absurd h (splitLines_ne_nil rest)
      | cons x xs => exact ⟨x, xs, rfl⟩
    rw [splitLines_cons b rest l ls h]
    rw [h] at ih
    by_cases hb : b = 10
    · subst hb
      simp only [if_pos rfl]
      unfold joinLines
      simpa using ih
    · simp only [if_neg hb]
      cases ls with
      | nil =>
        unfold joinLines
        unfold joinLines at ih
        simpa using ih
      | cons l2 ls2 =>
        unfold joinLines
        unfold joinLines at ih
        simpa using ih

theorem visibleWidth_no_escape (l : GoStr) (h : 27 ∉ l) :
    visibleWidth l = l.length := by
  unfold visibleWidth
  have key : ∀ (m : GoStr), 27 ∉ m → visibleWidthGo false m = m.length := by
    intro m
    induction m with
    | nil => intro _; simp [visibleWidthGo]
    | cons b rest ih =>
      intro hm
      have hb : b ≠ 27 := fun hb => hm (by simp [hb])
      have hrest : 27 ∉ rest := fun hr => hm (by simp [hr])
      unfold visibleWidthGo
      simp [hb, ih hrest, Nat.add_comm]
  exact key l h

end Lipgloss

namespace Lipgloss

theorem joinCell_last (ls : List GoStr) (w row : Nat) :
    joinCell true ls w row = (ls.get? row).getD [] := by
  unfold joinCell
  cases ls.get? row <;> simp

theorem range_map_getD (ls : List GoStr) :
    (List.range ls.length).map (fun r => (ls.get? r).getD []) = ls := by
  induction ls with
  | nil => simp
  | cons a t ih =>
    rw [List.length_cons, List.range_succ_eq_map]
    simp only [List.map_cons, List.map_map]
    have : ((fun r => ((a :: t).get? r).getD []) ∘ Nat.succ) = fun r => (t.get? r).getD [] := by
      funext r; simp [Function.comp]
    rw [this, ih]
    simp

theorem joinHorizontal_single_eq (pos : Position) (s : GoStr) :
    JoinHorizontal pos [s] = s := by
  unfold JoinHorizontal
  simp only [List.map_cons, List.map_nil, List.zip_cons_cons, List.zip_nil_right]
  rw [if_neg (by simp)]
  have hne := splitLines_ne_nil s
  have hlen : (splitLines s).length > 0 := List.length_pos.mpr hne
  have hml : List.foldl (fun m ls => if ls.length > m then ls.length else m) 0 [splitLines s]
      = (splitLines s).length := by
    simp only [List.foldl]
    rw [if_pos hlen]
  rw [hml]
  have hcell : ∀ (W row : Nat),
      (List.map (fun cell => joinCell (decide (cell.1 = [s].length - 1)) cell.2.1 cell.2.2 row)
        [(splitLines s, W)].enum).flatten = ((splitLines s).get? row).getD [] := by
    intro W row
    show (List.map _ [(0, (splitLines s, W))]).flatten = _
    simp only [List.map_cons, List.map_nil, List.flatten]
    simp only [List.append_nil]
    have : decide ((0 : Nat) = [s].length - 1) = true := by simp
    rw [this, joinCell_last]
  simp only [hcell]
  rw [range_map_getD]
  exact joinLines_splitLines s

end Lipgloss

namespace Lipgloss

/-- C10: `JoinHorizontal` is the identity on a single argument: joining with
one part returns that part byte-for-byte, because rows of the last part are
never padded. -/
theorem joinHorizontal_single (pos : Position) (s : GoStr) :
    JoinHorizontal pos [s] = s :=
  joinHorizontal_single_eq pos s

/-- C4, counterexample: `JoinHorizontal` on `["AB", "C"]` yields `"ABC"`, not
`"AB" ++ "C "` — the second (last) part is never padded, and its own visible
width is 1, not 2. -/
theorem joinHorizontal_pad_cex :
    JoinHorizontal Position.Left [[65, 66], [67]] = [65, 66, 67] ∧
    JoinHorizontal Position.Left [[65, 66], [67]] ≠ [65, 66, 67, 32] := by
  constructor
  · decide
  · decide

end Lipgloss

namespace Lipgloss

/-- A part's own visible width: the maximal visible width of its lines
(following the spec's words for `joinHorizontal`). -/
def partWidth (lines : List GoStr) : Nat :=
  lines.foldl (fun w line => max w (visibleWidth line)) 0

/-- Pad one row with spaces up to the owning part's width `w` (a row already
at or above `w` gains nothing). -/
def padRow (w : Nat) (line : GoStr) : GoStr :=
  line ++ List.replicate (w - visibleWidth line) 32

/-- One output row of the spec-side join, built by walking the parts
left-to-right: every part but the last contributes its row padded to the
part's own width (or a blank of that width when the part has no such row);
the last part contributes its row as is, never padded (and nothing when it
has no such row). -/
def specCells : List (List GoStr × Nat) → Nat → GoStr
  | [], _ => []
  | [(lines, _w)], row => (lines.get? row).getD []
  | (lines, w) :: c2 :: cs, row =>
    (match lines.get? row with
     | some line => padRow w line
     | none => List.replicate w 32) ++ specCells (c2 :: cs) row

/-- `joinHorizontal` as the amended claim words it: split each part into
lines, compute each part's own visible width, and concatenate corresponding
rows left-to-right, padding each non-final part's rows with spaces up to that
part's own width so columns stay aligned; the final part is never padded. -/
def joinHorizontalSpec (parts : List GoStr) : GoStr :=
  if parts = [] then [] else
  let partLines := parts.map splitLines
  let cols := partLines.map (fun ls => (ls, partWidth ls))
  let maxLines := partLines.foldl (fun m ls => max m ls.length) 0
  joinLines ((List.range maxLines).map (fun row => specCells cols row))

theorem if_gt_eq_max (a b : Nat) : (if b > a then b else a) = max a b := by
  by_cases h : b > a
  · rw [if_pos h]; omega
  · rw [if_neg h]; omega

theorem foldl_if_max_length (ls : List (List GoStr)) :
    ∀ a : Nat, ls.foldl (fun m l => if l.length > m then l.length else m) a =
      ls.foldl (fun m l => max m l.length) a := by
  induction ls with
  | nil => intro a; rfl
  | cons x xs ih =>
    intro a
    simp only [List.foldl_cons]
    rw [if_gt_eq_max a x.length]
    exact ih _

theorem foldl_if_max_width (ls : List GoStr) :
    ∀ a : Nat, ls.foldl (fun w line => if visibleWidth line > w then visibleWidth line else w) a =
      ls.foldl (fun w line => max w (visibleWidth line)) a := by
  induction ls with
  | nil => intro a; rfl
  | cons x xs ih =>
    intro a
    simp only [List.foldl_cons]
    rw [if_gt_eq_max a (visibleWidth x)]
    exact ih _

theorem zip_map_self {α β : Type} (l : List α) (g : α → β) :
    l.zip (l.map g) = l.map (fun x => (x, g x)) := by
  induction l with
  | nil => rfl
  | cons x xs ih => simp [ih]

theorem joinCell_not_last_some (lines : List GoStr) (w row : Nat) (line : GoStr)
    (h : lines.get? row = some line) :
    joinCell false lines w row = padRow w line := by
  unfold joinCell padRow
  rw [h]
  dsimp only []
  by_cases hlt : visibleWidth line < w
  · simp [hlt]
  · have h0 : w - visibleWidth line = 0 := by omega
    simp [hlt, h0]

theorem joinCell_not_last_none (lines : List GoStr) (w row : Nat)
    (h : lines.get? row = none) :
    joinCell false lines w row = List.replicate w 32 := by
  unfold joinCell
  rw [h]
  simp

theorem specCells_eq_aux (row : Nat) :
    ∀ (cols : List (List GoStr × Nat)) (n L : Nat), cols ≠ [] → n + cols.length = L →
      List.flatten ((List.enumFrom n cols).map
        (fun cell => joinCell (decide (cell.1 = L - 1)) cell.2.1 cell.2.2 row)) =
      specCells cols row := by
  intro cols
  induction cols with
  | nil => intro n L hne _; exact absurd rfl hne
  | cons c cs ih =>
    intro n L _ hL
    obtain ⟨lines, w⟩ := c
    cases cs with
    | nil =>
      have hn : n = L - 1 := by simp at hL; omega
      simp only [List.enumFrom, List.map_cons, List.map_nil, List.flatten_cons,
        List.flatten_nil, List.append_nil]
      rw [show decide (n = L - 1) = true from by simp [hn]]
      rw [joinCell_last]
      rfl
    | cons c2 cs2 =>
      have hn : decide (n = L - 1) = false := by
        simp only [List.length_cons] at hL
        simp
        omega
      rw [show List.enumFrom n ((lines, w) :: c2 :: cs2) =
        (n, (lines, w)) :: List.enumFrom (n + 1) (c2 :: cs2) from rfl]
      rw [List.map_cons, List.flatten_cons]
      rw [hn]
      rw [ih (n + 1) L (by simp) (by simp only [List.length_cons] at hL ⊢; omega)]
      cases hget : lines.get? row with
      | some line =>
        rw [joinCell_not_last_some lines w row line hget]
        show padRow w line ++ specCells (c2 :: cs2) row = specCells ((lines, w) :: c2 :: cs2) row
        conv_rhs => rw [specCells]
        rw [hget]
      | none =>
        rw [joinCell_not_last_none lines w row hget]
        show List.replicate w 32 ++ specCells (c2 :: cs2) row =
          specCells ((lines, w) :: c2 :: cs2) row
        conv_rhs => rw [specCells]
        rw [hget]

theorem joinHorizontal_eq_spec (pos : Position) (parts : List GoStr) :
    JoinHorizontal pos parts = joinHorizontalSpec parts := by
  by_cases hp : parts = []
  · subst hp; rfl
  · unfold JoinHorizontal joinHorizontalSpec
    rw [if_neg hp, if_neg hp]
    dsimp only []
    rw [foldl_if_max_length (parts.map splitLines) 0]
    simp only [foldl_if_max_width]
    simp only [show ∀ ls : List GoStr, ls.foldl (fun w line => max w (visibleWidth line)) 0 =
      partWidth ls from fun _ => rfl]
    rw [zip_map_self (parts.map splitLines) (fun ls => partWidth ls)]
    congr 1
    apply List.map_congr_left
    intro row _
    have hcols : (parts.map splitLines).map (fun ls => (ls, partWidth ls)) ≠ [] := by
      simp [hp]
    have hlen : parts.length =
        ((parts.map splitLines).map (fun ls => (ls, partWidth ls))).length := by
      simp
    rw [show List.enum ((parts.map splitLines).map (fun ls => (ls, partWidth ls))) =
        List.enumFrom 0 ((parts.map splitLines).map (fun ls => (ls, partWidth ls))) from rfl]
    rw [hlen]
    exact specCells_eq_aux row _ 0 _ hcols (by simp)

/-- C4, amended: `JoinHorizontal` concatenates corresponding rows
left-to-right; each part except the last has its rows padded with spaces up to
that part's own visible width (blank rows of that width where the part runs
out of lines), and the last part is never padded — for every list of parts,
the join equals the spec-side `joinHorizontalSpec` built from exactly that
rule.  In particular `JoinHorizontal("AB", "C")` yields `"ABC"`, and for parts
of different line counts the non-last parts' columns stay aligned, e.g.
`JoinHorizontal("A\nAB", "C")` yields `"A C\nAB"`. -/
theorem joinHorizontal_rows :
    (∀ (pos : Position) (parts : List GoStr),
      JoinHorizontal pos parts = joinHorizontalSpec parts) ∧
    JoinHorizontal Position.Left [[65, 66], [67]] = [65, 66, 67] ∧
    JoinHorizontal Position.Left [[65, 10, 65, 66], [67]] = [65, 32, 67, 10, 65, 66] :=
  ⟨joinHorizontal_eq_spec, by decide, by decide⟩

end Lipgloss

namespace Lipgloss

/-- Witness for the amended C4 theorem at the concrete multi-line input whose
first part must be padded to its own width. -/
theorem joinHorizontal_rows_witness :
    JoinHorizontal Position.Left [[65, 10, 65, 66], [67]] =
      joinHorizontalSpec [[65, 10, 65, 66], [67]] :=
  joinHorizontal_rows.1 Position.Left [[65, 10, 65, 66], [67]]

/-- C3, counterexample: with `H = 0` the height is not fixed (a one-line
result appears instead of zero lines); with `W = 0` the width is not fixed
(the line keeps its natural width 1 ≠ 0); and for content containing the
escape byte 0x1b, a line of byte-length `W` can have visible width below `W`. -/
theorem render_fixed_dims_cex :
    (splitLines (((NewStyle.Width 2).Height 0).Render [97])).length = 1 ∧
    (1 : Nat) ≠ 0 ∧
    ((NewStyle.Width 0).Height 1).Render [97] = [97] ∧
    visibleWidth [97] = 1 ∧
    ((NewStyle.Width 1).Height 1).Render [27] = [27] ∧
    visibleWidth [27] = 0 ∧
    (0 : Nat) ≠ 1 := by
  refine ⟨by decide, by decide, by decide, by decide, by decide, by decide, by decide⟩

end Lipgloss

namespace Lipgloss

/-- The width-fixing step of `Render` for a fixed width `W` (the per-line
pad-or-truncate of style.go lines 111–118 when `s.width = W`). -/
def widthFix (W : Nat) (l : GoStr) : GoStr :=
  if l.length < W then l ++ List.replicate (W - l.length) 32
  else if l.length > W ∧ W > 0 then l.take W
  else l

/-- The height-fixing step of `Render` for a fixed height `H` (style.go lines
120–128): pad with all-space lines of width `W`, then truncate. -/
def heightFix (W H : Nat) (ls : List GoStr) : List GoStr :=
  let ls2 := ls ++ List.replicate (H - ls.length) (List.replicate W 32)
  if ls2.length > H then ls2.take H else ls2

theorem render_plain (W H : Nat) (str : GoStr) (hW : W ≠ 0) (hH : 0 < H) :
    ((NewStyle.Width W).Height H).Render str =
      joinLines (heightFix W H ((splitLines str).map (widthFix W))) := by
  unfold Style.Render NewStyle Style.Width Style.Height widthFix heightFix
  simp [hW, hH, repeatStr]

end Lipgloss

namespace Lipgloss

theorem widthFix_length (W : Nat) (l : GoStr) (hW : 0 < W) :
    (widthFix W l).length = W := by
  unfold widthFix
  by_cases h1 : l.length < W
  · simp [h1]; omega
  · by_cases h2 : l.length > W
    · simp [h1, h2, hW]; omega
    · simp [h1, h2]; omega

theorem mem_widthFix (W : Nat) (l : GoStr) (b : Nat) :
    b ∈ widthFix W l → b ∈ l ∨ b = 32 := by
  unfold widthFix
  intro h
  by_cases h1 : l.length < W
  · simp [h1] at h
    rcases h with h | h
    · exact Or.inl h
    · exact Or.inr h.2
  · by_cases h2 : l.length > W ∧ W > 0
    · simp [h1, h2] at h
      exact Or.inl (List.mem_of_mem_take h)
    · simp [h1, h2] at h
      exact Or.inl h

theorem mem_splitLines_mem (s : GoStr) (b : Nat) :
    ∀ l, l ∈ splitLines s → b ∈ l → b ∈ s := by
  induction s with
  | nil => intro l hl hb; simp [splitLines] at hl; simp [hl] at hb
  | cons c rest ih =>
    intro l hl hb
    obtain ⟨l0, ls, h⟩ : ∃ l0 ls, splitLines rest = l0 :: ls := by
      cases h : splitLines rest with
      | nil => exact absurd h (splitLines_ne_nil rest)
      | cons x xs => exact ⟨x, xs, rfl⟩
    rw [splitLines_cons c rest l0 ls h] at hl
    by_cases hc : c = 10
    · simp [hc] at hl
      rcases hl with hl | hl | hl
      · simp [hl] at hb
      · exact List.mem_cons_of_mem c (ih l (by rw [h]; simp [hl]) hb)
      · exact List.mem_cons_of_mem c (ih l (by rw [h]; simp [hl]) hb)
    · simp [hc] at hl
      rcases hl with hl | hl
      · subst hl
        rcases List.mem_cons.mp hb with rfl | hb'
        · exact List.mem_cons_self b rest
        · exact List.mem_cons_of_mem c (ih l0 (by rw [h]; simp) hb')
      · exact List.mem_cons_of_mem c (ih l (by rw [h]; simp [hl]) hb)

theorem heightFix_length (W H : Nat) (ls : List GoStr) (_hH : 0 < H) :
    (heightFix W H ls).length = H := by
  unfold heightFix
  by_cases h : ls.length + (H - ls.length) > H
  · simp [h]; omega
  · simp [h]; omega

theorem mem_heightFix (W H : Nat) (ls : List GoStr) (l : GoStr) :
    l ∈ heightFix W H ls → l ∈ ls ∨ l = List.replicate W 32 := by
  unfold heightFix
  intro h
  by_cases hc : ls.length + (H - ls.length) > H
  · simp [hc] at h
    have := List.mem_of_mem_take h
    rcases List.mem_append.mp this with h' | h'
    · exact Or.inl h'
    · exact Or.inr (List.eq_of_mem_replicate h')
  · simp [hc] at h
    rcases h with h' | h'
    · exact Or.inl h'
    · exact Or.inr h'.2

end Lipgloss

namespace Lipgloss

/-- C3, amended: for `W ≥ 1`, `H ≥ 1` and content made of single-byte
characters other than the escape byte 0x1b, rendering with fixed width `W` and
fixed height `H` yields exactly `H` lines, each of visible width exactly `W`.
(With `W = 0` or `H = 0` the corresponding dimension is not fixed at all, and
escape bytes in the content make a line's visible width fall below `W`; see
the counterexample.) -/
theorem render_fixed_dims (W H : Nat) (str : GoStr) (hW : 1 ≤ W) (hH : 1 ≤ H)
    (hstr : ∀ b ∈ str, b ≠ 27 ∧ b < 128) :
    (splitLines (((NewStyle.Width W).Height H).Render str)).length = H ∧
    ∀ l ∈ splitLines (((NewStyle.Width W).Height H).Render str),
      visibleWidth l = W := by
  have hW0 : W ≠ 0 := by omega
  have hH0 : 0 < H := hH
  rw [render_plain W H str hW0 hH0]
  have hmem : ∀ l ∈ heightFix W H ((splitLines str).map (widthFix W)),
      l.length = W ∧ 10 ∉ l ∧ 27 ∉ l := by
    intro l hl
    rcases mem_heightFix _ _ _ _ hl with hl' | rfl
    · rcases List.mem_map.mp hl' with ⟨l0, hl0, rfl⟩
      refine ⟨widthFix_length W l0 (by omega), ?_, ?_⟩
      · intro h10
        rcases mem_widthFix _ _ _ h10 with h | h
        · exact mem_splitLines_not_newline str l0 hl0 h
        · exact absurd h (by decide)
      · intro h27
        rcases mem_widthFix _ _ _ h27 with h | h
        · exact (hstr 27 (mem_splitLines_mem str 27 l0 hl0 h)).1 rfl
        · exact absurd h (by decide)
    · refine ⟨by simp, ?_, ?_⟩
      · intro h; exact absurd (List.eq_of_mem_replicate h) (by decide)
      · intro h; exact absurd (List.eq_of_mem_replicate h) (by decide)
  have hlen : (heightFix W H ((splitLines str).map (widthFix W))).length = H :=
    heightFix_length W H _ hH0
  have hne : heightFix W H ((splitLines str).map (widthFix W)) ≠ [] := by
    intro h
    rw [h] at hlen
    simp at hlen
    omega
  rw [splitLines_joinLines _ hne (fun l hl => (hmem l hl).2.1)]
  refine ⟨hlen, fun l hl => ?_⟩
  rw [visibleWidth_no_escape l (hmem l hl).2.2]
  exact (hmem l hl).1

/-- Witness for the amended C3 theorem: rendering `"a"` at width 2, height 2
gives 2 lines of visible width 2. -/
theorem render_fixed_dims_witness :
    (splitLines (((NewStyle.Width 2).Height 2).Render [97])).length = 2 ∧
    ∀ l ∈ splitLines (((NewStyle.Width 2).Height 2).Render [97]),
      visibleWidth l = 2 :=
  render_fixed_dims 2 2 [97] (by decide) (by decide)
    (by intro b hb; simp at hb; subst hb; exact ⟨by decide, by decide⟩)

end Lipgloss

namespace Tea

theorem parseInputGo_nil (f : Nat) : parseInputGo f [] = [] := by
  cases f <;> rfl

theorem takeDigits_length_le (l : List Nat) :
    ∀ acc, (takeDigits acc l).2.length ≤ l.length := by
  induction l with
  | nil => intro acc; simp [takeDigits]
  | cons b rest ih =>
    intro acc
    unfold takeDigits
    by_cases h : 48 ≤ b ∧ b ≤ 57
    · simp only [if_pos h]
      exact Nat.le_trans (ih _) (by simp)
    · simp only [if_neg h]
      exact Nat.le_refl _

theorem parseSGRMouse_pos (buf : List Nat) (m : Msg) (k : Nat)
    (h : parseSGRMouse buf = some (m, k)) : 0 < k ∧ k ≤ buf.length := by
  unfold parseSGRMouse at h
  split at h
  case h_2 => exact absurd h (by simp)
  case h_1 _ rest =>
    dsimp only [] at h
    split at h
    case h_2 => exact absurd h (by simp)
    rename_i r1 heq1
    split at h
    case h_2 => exact absurd h (by simp)
    rename_i r2 heq2
    split at h
    case h_2 => exact absurd h (by simp)
    rename_i endChar r4 heq3
    split at h
    case isFalse => exact absurd h (by simp)
    case isTrue =>
      injection h with h'
      injection h' with hm hk
      have t1 := takeDigits_length_le rest 0
      have t2 := takeDigits_length_le r1 0
      have t3 := takeDigits_length_le r2 0
      rw [heq1] at t1
      rw [heq2] at t2
      rw [heq3] at t3
      simp only [List.length_cons] at t1 t2 t3 hk ⊢
      omega

theorem csiMod_pos (c : Nat) (rest : List Nat) (m : Msg) (k : Nat)
    (h : csiMod c rest = some (m, k)) : k = 6 := by
  unfold csiMod at h
  split at h
  case h_2 => exact absurd h (by simp)
  case h_1 d3 mm kk tail =>
    split at h
    case isFalse => exact absurd h (by simp)
    case isTrue =>
      split at h
      case h_2 => exact absurd h (by simp)
      case h_1 nm heq =>
        injection h with h'
        injection h' with hm hk
        omega

theorem csiTildeRes_pos (c : Nat) (rest : List Nat) (m : Msg) (k : Nat)
    (h : csiTildeRes c rest = some (m, k)) : k = 4 := by
  unfold csiTildeRes at h
  split at h
  case h_2 => exact absurd h (by simp)
  case h_1 tail =>
    split at h
    case h_2 => exact absurd h (by simp)
    case h_1 nm heq =>
      injection h with h'
      injection h' with hm hk
      omega

theorem parseCSI_pos (buf : List Nat) (m : Msg) (k : Nat)
    (h : parseCSI buf = some (m, k)) : 0 < k := by
  unfold parseCSI at h
  split at h
  case h_2 => exact absurd h (by simp)
  case h_1 _ c rest =>
    split at h
    case h_1 name heq =>
      injection h with h'
      injection h' with hm hk
      omega
    case h_2 =>
      split at h
      case h_1 r heqmod =>
        injection h with h'
        subst h'
        have := csiMod_pos c rest m k heqmod
        omega
      case h_2 heqmod =>
        split at h
        case h_1 r heqt =>
          injection h with h'
          subst h'
          have := csiTildeRes_pos c rest m k heqt
          omega
        case h_2 heqt =>
          injection h with h'
          injection h' with hm hk
          omega

theorem parseStep_length (b : Nat) (rest : List Nat) :
    (parseStep b rest).2.length ≤ rest.length := by
  unfold parseStep
  by_cases hb : b = 27
  · subst hb
    rw [if_pos rfl]
    cases hsgr : sgrGuard 27 rest with
    | some p =>
      obtain ⟨msg, consumed⟩ := p
      have hpos : 0 < consumed := by
        unfold sgrGuard at hsgr
        split at hsgr
        · exact (parseSGRMouse_pos _ _ _ hsgr).1
        · exact absurd hsgr (by simp)
      dsimp only []
      rw [List.length_drop]
      simp only [List.length_cons]
      omega
    | none =>
      cases hcsi : csiGuard 27 rest with
      | some p =>
        obtain ⟨msg, consumed⟩ := p
        have hpos : 0 < consumed := by
          unfold csiGuard at hcsi
          split at hcsi
          · exact parseCSI_pos _ _ _ hcsi
          · exact absurd hcsi (by simp)
        dsimp only []
        rw [List.length_drop]
        simp only [List.length_cons]
        omega
      | none =>
        dsimp only []
        cases rest with
        | nil => simp
        | cons c rest' =>
          by_cases hc : c ≠ 91 ∧ c ≠ 79
          · simp only [if_pos hc]
            simp
          · simp only [if_neg hc]
            simp
  · simp only [if_neg hb]
    cases hck : controlKey b with
    | some name => simp
    | none =>
      dsimp only []
      by_cases hpr : 32 ≤ b ∧ b < 127
      · simp only [if_pos hpr]
        exact Nat.le_refl _
      · simp only [if_neg hpr]
        exact Nat.le_refl _

theorem parseInputGo_fuel (n : Nat) :
    ∀ (f g : Nat) (l : List Nat), l.length ≤ f → l.length ≤ g → l.length ≤ n →
      parseInputGo f l = parseInputGo g l := by
  induction n with
  | zero =>
    intro f g l _ _ hn
    have : l = [] := List.length_eq_zero.mp (Nat.le_zero.mp hn)
    subst this
    rw [parseInputGo_nil, parseInputGo_nil]
  | succ n ih =>
    intro f g l hf hg hn
    cases l with
    | nil => rw [parseInputGo_nil, parseInputGo_nil]
    | cons b rest =>
      simp only [List.length_cons] at hf hg hn
      obtain ⟨f', rfl⟩ : ∃ f', f = f' + 1 := ⟨f - 1, by omega⟩
      obtain ⟨g', rfl⟩ : ∃ g', g = g' + 1 := ⟨g - 1, by omega⟩
      show parseInputGo (f' + 1) (b :: rest) = parseInputGo (g' + 1) (b :: rest)
      unfold parseInputGo
      have hlen := parseStep_length b rest
      have hrec : parseInputGo f' (parseStep b rest).2 = parseInputGo g' (parseStep b rest).2 :=
        ih f' g' _ (by omega) (by omega) (by omega)
      cases (parseStep b rest).1 with
      | some msg => rw [hrec]
      | none => rw [hrec]

theorem parseInputGo_eq_parseInput (f : Nat) (l : List Nat) (hf : l.length ≤ f) :
    parseInputGo f l = parseInput l :=
  parseInputGo_fuel f f l.length l hf (Nat.le_refl _) hf

/-- C7, counterexample: the control bytes 0x07 and 0x08 lie in the claimed
range 0x01–0x0f but have no case in the switch of `parseInput`, and being
below 0x20 they fall out of the printable branch too: they produce no key
event at all instead of exactly one. -/
theorem control_bytes_cex :
    parseInput [7] = [] ∧ parseInput [8] = [] := by
  exact ⟨by decide, by decide⟩

/-- C7, amended: every control byte in 0x01–0x0f except 0x07 and 0x08, as
well as 0x7f, tab, CR and LF, decodes through the fixed table of `parseInput`
to exactly one named control-key event; the bytes 0x07 and 0x08 produce no
event. -/
theorem control_bytes_table :
    parseInput [0x01] = [Msg.key "ctrl+a"] ∧
    parseInput [0x02] = [Msg.key "ctrl+b"] ∧
    parseInput [0x03] = [Msg.key "ctrl+c"] ∧
    parseInput [0x04] = [Msg.key "ctrl+d"] ∧
    parseInput [0x05] = [Msg.key "ctrl+e"] ∧
    parseInput [0x06] = [Msg.key "ctrl+f"] ∧
    parseInput [0x09] = [Msg.key "tab"] ∧
    parseInput [0x0a] = [Msg.key "enter"] ∧
    parseInput [0x0b] = [Msg.key "ctrl+k"] ∧
    parseInput [0x0c] = [Msg.key "ctrl+l"] ∧
    parseInput [0x0d] = [Msg.key "enter"] ∧
    parseInput [0x0e] = [Msg.key "ctrl+n"] ∧
    parseInput [0x0f] = [Msg.key "ctrl+o"] ∧
    parseInput [0x7f] = [Msg.key "backspace"] ∧
    parseInput [0x07] = [] ∧
    parseInput [0x08] = [] := by
  refine ⟨?_, ?_, ?_, ?_, ?_, ?_, ?_, ?_, ?_, ?_, ?_, ?_, ?_, ?_, ?_, ?_⟩ <;> decide

theorem controlKey_none_of_printable (b : Nat) (h1 : 32 ≤ b) (h2 : b < 127) :
    controlKey b = none := by
  unfold controlKey
  split <;> first | rfl | omega

/-- C8: every printable byte `b` in `[0x20, 0x7e)` decodes, as a single-byte
chunk, to exactly one key event whose code is the one-character string of
`b`. -/
theorem printable_bytes_decode (b : Nat) (h1 : 32 ≤ b) (h2 : b < 126) :
    parseInput [b] = [Msg.key (byteStr b)] := by
  have hb27 : b ≠ 27 := by omega
  have hstep : parseStep b [] = (some (Msg.key (byteStr b)), []) := by
    unfold parseStep
    rw [if_neg hb27, controlKey_none_of_printable b h1 (by omega)]
    dsimp only []
    rw [if_pos ⟨h1, by omega⟩]
  show parseInputGo 1 [b] = [Msg.key (byteStr b)]
  unfold parseInputGo
  rw [hstep]
  rfl

/-- Witness for C8 at the byte `'a'`. -/
theorem printable_bytes_decode_witness :
    parseInput [97] = [Msg.key (byteStr 97)] :=
  printable_bytes_decode 97 (by decide) (by decide)

end Tea

namespace Tea

theorem csiMod_none (c d : Nat) (rest : List Nat) (hmod : ¬(c = 49 ∧ d = 59)) :
    csiMod c (d :: rest) = none := by
  unfold csiMod
  split
  case h_1 d3 mm kk tail heq =>
    injection heq with h1 h2
    subst h1
    rw [if_neg hmod]
  case h_2 => rfl

theorem csiTildeRes_none (c d : Nat) (rest : List Nat) (htilde : d ≠ 126) :
    csiTildeRes c (d :: rest) = none := by
  unfold csiTildeRes
  split
  case h_1 tail heq =>
    injection heq with h1 h2
    exact absurd h1 htilde
  case h_2 => rfl

theorem sgrGuard_not60 (b c : Nat) (t : List Nat) (hc : c ≠ 60) :
    sgrGuard b (91 :: c :: t) = none := by
  unfold sgrGuard
  split
  case h_1 tail heq =>
    injection heq with h1 h2
    injection h2 with h2a h2b
    exact absurd h2a hc
  case h_2 => rfl

/-- C9, amended: decoding always terminates and is total on any byte buffer;
an unrecognized CSI sequence (`ESC [` followed by a final outside every
table) dispatches as a key event coded `"unknown"`, consumes exactly the
three bytes `ESC [ c`, and the scanner resumes in the Ground state on the
remaining bytes.  (A truncated `ESC [` at the end of the buffer, however, is
dispatched as `"esc"` followed by the literal `'['` — not as `"unknown"`;
see the counterexample.) -/
theorem escape_resume (c d : Nat) (rest : List Nat)
    (hsingle : csiSingle c = none) (hc60 : c ≠ 60)
    (hmod : ¬(c = 49 ∧ d = 59)) (htilde : d ≠ 126) :
    parseInput (27 :: 91 :: c :: d :: rest) =
      Msg.key "unknown" :: parseInput (d :: rest) := by
  have hcsi : parseCSI (27 :: 91 :: c :: d :: rest) = some (Msg.key "unknown", 3) := by
    unfold parseCSI
    dsimp only []
    rw [hsingle, csiMod_none c d rest hmod, csiTildeRes_none c d rest htilde]
  have hstep : parseStep 27 (91 :: c :: d :: rest) = (some (Msg.key "unknown"), d :: rest) := by
    unfold parseStep
    rw [if_pos rfl, sgrGuard_not60 27 c (d :: rest) hc60]
    dsimp only []
    unfold csiGuard
    rw [hcsi]
    dsimp only []
    rw [List.drop_succ_cons, List.drop_succ_cons, List.drop_succ_cons, List.drop_zero]
  show parseInputGo (27 :: 91 :: c :: d :: rest).length (27 :: 91 :: c :: d :: rest) = _
  simp only [List.length_cons]
  show parseInputGo (rest.length + 1 + 1 + 1 + 1) (27 :: 91 :: c :: d :: rest) = _
  unfold parseInputGo
  rw [hstep]
  dsimp only []
  rw [parseInputGo_eq_parseInput (rest.length + 1 + 1 + 1) (d :: rest) (by simp)]

/-- C9, counterexample: a truncated escape sequence `ESC [` at the end of the
buffer is not dispatched as `"unknown"` — it decodes as `"esc"` followed by
the literal `'['`. -/
theorem escape_resume_cex :
    parseInput [27, 91] = [Msg.key "esc", Msg.key "["] ∧
    Msg.key "unknown" ∉ parseInput [27, 91] := by
  exact ⟨by decide, by decide⟩

/-- Witness for the amended C9 theorem: the unrecognized final `'Q'` decodes
as `"unknown"` and scanning resumes with the remaining byte `'x'`. -/
theorem escape_resume_witness :
    parseInput [27, 91, 81, 120] = Msg.key "unknown" :: parseInput [120] :=
  escape_resume 81 120 [] (by decide) (by decide) (by decide) (by decide)

end Tea

namespace Tea

/-- C6, counterexample: the final byte `Z` belongs to the single-final table
(`ESC [ Z` is `shift+tab`) but has no case in the modified-key branch, so
`ESC [ 1 ; 2 Z` does not decode through the composed table — it decodes as
`"unknown"` (consuming only `ESC [ 1`) followed by the literal bytes. -/
theorem csi_modified_z_cex :
    parseInput [27, 91, 90] = [Msg.key "shift+tab"] ∧
    parseInput [27, 91, 49, 59, 50, 90] =
      [Msg.key "unknown", Msg.key ";", Msg.key "2", Msg.key "Z"] ∧
    Msg.key "shift+shift+tab" ∉ parseInput [27, 91, 49, 59, 50, 90] := by
  exact ⟨by decide, by decide, by decide⟩

/-- C6, amended: inside a CSI sequence the single final bytes
`A/B/C/D/H/F/Z` decode to `up/down/right/left/home/end/shift+tab`; the
six-byte grammar `ESC [ 1 ; mod final` maps modifier digits 2–8 to the
prefixes `shift+`, `alt+`, `shift+alt+`, `ctrl+`, `shift+ctrl+`,
`alt+ctrl+`, `shift+alt+ctrl+` composed with the final-byte table restricted
to `A/B/C/D/H/F` (`Z` has no case in the modified grammar); a digit run
terminated by `~` maps 2/3/5/6 to `insert/delete/pgup/pgdown`; and
`ESC [ 1 ; 5 A` decodes to exactly one key event `"ctrl+up"`. -/
theorem csi_decode :
    (parseInput [27, 91, 65] = [Msg.key "up"] ∧
     parseInput [27, 91, 66] = [Msg.key "down"] ∧
     parseInput [27, 91, 67] = [Msg.key "right"] ∧
     parseInput [27, 91, 68] = [Msg.key "left"] ∧
     parseInput [27, 91, 72] = [Msg.key "home"] ∧
     parseInput [27, 91, 70] = [Msg.key "end"] ∧
     parseInput [27, 91, 90] = [Msg.key "shift+tab"]) ∧
    (∀ k nm, csiModFinal k = some nm →
      parseInput [27, 91, 49, 59, 50, k] = [Msg.key ("shift+" ++ nm)] ∧
      parseInput [27, 91, 49, 59, 51, k] = [Msg.key ("alt+" ++ nm)] ∧
      parseInput [27, 91, 49, 59, 52, k] = [Msg.key ("shift+alt+" ++ nm)] ∧
      parseInput [27, 91, 49, 59, 53, k] = [Msg.key ("ctrl+" ++ nm)] ∧
      parseInput [27, 91, 49, 59, 54, k] = [Msg.key ("shift+ctrl+" ++ nm)] ∧
      parseInput [27, 91, 49, 59, 55, k] = [Msg.key ("alt+ctrl+" ++ nm)] ∧
      parseInput [27, 91, 49, 59, 56, k] = [Msg.key ("shift+alt+ctrl+" ++ nm)]) ∧
    (parseInput [27, 91, 50, 126] = [Msg.key "insert"] ∧
     parseInput [27, 91, 51, 126] = [Msg.key "delete"] ∧
     parseInput [27, 91, 53, 126] = [Msg.key "pgup"] ∧
     parseInput [27, 91, 54, 126] = [Msg.key "pgdown"]) ∧
    parseInput [27, 91, 49, 59, 53, 65] = [Msg.key "ctrl+up"] := by
  refine ⟨by decide, ?_, by decide, by decide⟩
  intro k nm hk
  unfold csiModFinal at hk
  split at hk <;>
    first
      | (injection hk with h; subst h; decide)
      | exact absurd hk (by simp)

/-- Witness for the amended C6 theorem: `ESC [ 1 ; 2 A` is `shift+up`. -/
theorem csi_decode_witness :
    parseInput [27, 91, 49, 59, 50, 65] = [Msg.key ("shift+" ++ "up")] :=
  (csi_decode.2.1 65 "up" (by decide)).1

end Tea

namespace Tea

/-- Decimal ASCII rendering of a natural number (fuel-based; the fuel `n + 1`
always suffices, see `takeDigits_toDigitsGo`). -/
def toDigitsGo : Nat → Nat → List Nat
  | 0, _ => []
  | f + 1, n => if n < 10 then [48 + n] else toDigitsGo f (n / 10) ++ [48 + n % 10]

/-- Decimal ASCII digit bytes of `n`. -/
def toDigits (n : Nat) : List Nat := toDigitsGo (n + 1) n

/-- The SGR mouse wire format `ESC [ < Cb ; Cx ; Cy fin`. -/
def sgrEncode (cb cx cy fin : Nat) : List Nat :=
  27 :: 91 :: 60 :: (toDigits cb ++ 59 :: (toDigits cx ++ 59 :: (toDigits cy ++ [fin])))

theorem takeDigits_cons_nondigit (acc b : Nat) (r : List Nat)
    (hb : ¬(48 ≤ b ∧ b ≤ 57)) : takeDigits acc (b :: r) = (acc, b :: r) := by
  unfold takeDigits
  rw [if_neg hb]

theorem takeDigits_toDigitsGo (n : Nat) :
    ∀ (f acc : Nat) (r : List Nat), n < f →
      takeDigits acc (toDigitsGo f n ++ r) =
        takeDigits (acc * 10 ^ (toDigitsGo f n).length + n) r := by
  induction n using Nat.strong_induction_on with
  | _ n ih =>
    intro f acc r hf
    obtain ⟨f', rfl⟩ : ∃ f', f = f' + 1 := ⟨f - 1, by omega⟩
    by_cases h10 : n < 10
    · unfold toDigitsGo
      rw [if_pos h10]
      show takeDigits acc ((48 + n) :: r) = _
      conv_lhs => rw [takeDigits]
      rw [if_pos (by omega : 48 ≤ 48 + n ∧ 48 + n ≤ 57)]
      congr 1
      simp only [List.length_cons, List.length_nil, Nat.zero_add, pow_one]
      omega
    · unfold toDigitsGo
      rw [if_neg h10]
      have hrec : n / 10 < f' := by omega
      rw [List.append_assoc]
      show takeDigits acc (toDigitsGo f' (n / 10) ++ ((48 + n % 10) :: r)) = _
      rw [ih (n / 10) (by omega) f' acc ((48 + n % 10) :: r) hrec]
      conv_lhs => rw [takeDigits]
      rw [if_pos (by omega : 48 ≤ 48 + n % 10 ∧ 48 + n % 10 ≤ 57)]
      congr 1
      simp only [List.length_append, List.length_cons, List.length_nil]
      rw [pow_succ, ← Nat.mul_assoc]
      generalize acc * 10 ^ (toDigitsGo f' (n / 10)).length = P
      omega

theorem takeDigits_encode (n b : Nat) (r : List Nat) (hb : ¬(48 ≤ b ∧ b ≤ 57)) :
    takeDigits 0 (toDigits n ++ b :: r) = (n, b :: r) := by
  show takeDigits 0 (toDigitsGo (n + 1) n ++ b :: r) = (n, b :: r)
  rw [takeDigits_toDigitsGo n (n + 1) 0 (b :: r) (by omega)]
  rw [takeDigits_cons_nondigit _ b r hb]
  congr 1
  omega

end Tea

namespace Tea

theorem parseSGRMouse_encode (cb cx cy fin : Nat) (hfin : fin = 77 ∨ fin = 109) :
    parseSGRMouse (sgrEncode cb cx cy fin) =
      some (Msg.mouse ((cx : Int) - 1) ((cy : Int) - 1) (sgrEventType cb fin),
        (sgrEncode cb cx cy fin).length) := by
  have hfin_nd : ¬(48 ≤ fin ∧ fin ≤ 57) := by rcases hfin with rfl | rfl <;> omega
  unfold parseSGRMouse sgrEncode
  dsimp only []
  rw [takeDigits_encode cb 59 _ (by omega)]
  dsimp only []
  rw [takeDigits_encode cx 59 _ (by omega)]
  dsimp only []
  rw [takeDigits_encode cy fin [] hfin_nd]
  dsimp only []
  rw [if_pos hfin]
  simp

theorem parseInput_sgrEncode (cb cx cy fin : Nat) (hfin : fin = 77 ∨ fin = 109) :
    parseInput (sgrEncode cb cx cy fin) =
      [Msg.mouse ((cx : Int) - 1) ((cy : Int) - 1) (sgrEventType cb fin)] := by
  have henc := parseSGRMouse_encode cb cx cy fin hfin
  show parseInputGo (sgrEncode cb cx cy fin).length (sgrEncode cb cx cy fin) = _
  rw [show sgrEncode cb cx cy fin =
      27 :: 91 :: 60 :: (toDigits cb ++ 59 :: (toDigits cx ++ 59 :: (toDigits cy ++ [fin])))
    from rfl] at henc ⊢
  simp only [List.length_cons]
  have hstep : parseStep 27
      (91 :: 60 :: (toDigits cb ++ 59 :: (toDigits cx ++ 59 :: (toDigits cy ++ [fin])))) =
      (some (Msg.mouse ((cx : Int) - 1) ((cy : Int) - 1) (sgrEventType cb fin)), []) := by
    unfold parseStep
    rw [if_pos rfl]
    unfold sgrGuard
    dsimp only []
    rw [henc]
    dsimp only []
    rw [show ((27 : Nat) :: 91 :: 60 ::
        (toDigits cb ++ 59 :: (toDigits cx ++ 59 :: (toDigits cy ++ [fin])))).length =
        (27 :: 91 :: 60 ::
        (toDigits cb ++ 59 :: (toDigits cx ++ 59 :: (toDigits cy ++ [fin])))).length from rfl,
      List.drop_length]
  unfold parseInputGo
  rw [hstep]
  dsimp only []
  rw [parseInputGo_nil]

end Tea

namespace Tea

/-- C5's reading of the event-type rules, following the spec's words: a final
`'m'` always means release; otherwise bit 6 (`cb & 64`) marks a wheel event
with bit 0 picking up (0) or down (1); bit 5 (`cb & 32`) marks motion
regardless of the button bits; and bits 0–1 select
Left/Middle/Right/Release. -/
def sgrEventTypeSpec (cb fin : Nat) : MouseEventType :=
  if fin = 109 then MouseEventType.MouseRelease
  else if cb &&& 64 ≠ 0 then
    (if cb &&& 1 = 0 then MouseEventType.MouseWheelUp else MouseEventType.MouseWheelDown)
  else if cb &&& 32 ≠ 0 then MouseEventType.MouseMotion
  else
    match cb &&& 3 with
    | 0 => MouseEventType.MouseLeft
    | 1 => MouseEventType.MouseMiddle
    | 2 => MouseEventType.MouseRight
    | _ => MouseEventType.MouseRelease

theorem sgrEventType_eq_spec (cb fin : Nat) :
    sgrEventType cb fin = sgrEventTypeSpec cb fin := by
  unfold sgrEventType sgrEventTypeSpec
  by_cases h109 : fin = 109
  · simp [h109]
  · simp only [if_neg h109]

/-- C5: decoding an SGR mouse report `ESC [ < Cb ; Cx ; Cy` followed by `M`
or `m` yields exactly one mouse event at the 0-based coordinates
`(Cx-1, Cy-1)`; a final `m` always means release; for a final `M` the event
type follows the bit rules of `sgrEventTypeSpec` (wheel from bit 6 with
direction from bit 0, else motion from bit 5, else buttons from bits 0–1,
where value 3 is release even on `M`); and concretely `ESC[<0;10;5M` is a
Left event at (9,4) while `ESC[<64;1;1M` is wheel-up at (0,0). -/
theorem sgr_mouse_decode :
    (∀ cb cx cy : Nat,
      parseInput (sgrEncode cb cx cy 77) =
        [Msg.mouse ((cx : Int) - 1) ((cy : Int) - 1) (sgrEventTypeSpec cb 77)] ∧
      parseInput (sgrEncode cb cx cy 109) =
        [Msg.mouse ((cx : Int) - 1) ((cy : Int) - 1) MouseEventType.MouseRelease]) ∧
    (∀ cb fin : Nat, sgrEventType cb fin = sgrEventTypeSpec cb fin) ∧
    parseInput [27, 91, 60, 48, 59, 49, 48, 59, 53, 77] =
      [Msg.mouse 9 4 MouseEventType.MouseLeft] ∧
    parseInput [27, 91, 60, 54, 52, 59, 49, 59, 49, 77] =
      [Msg.mouse 0 0 MouseEventType.MouseWheelUp] := by
  refine ⟨?_, sgrEventType_eq_spec, by decide, by decide⟩
  intro cb cx cy
  constructor
  · rw [parseInput_sgrEncode cb cx cy 77 (Or.inl rfl), sgrEventType_eq_spec]
  · rw [parseInput_sgrEncode cb cx cy 109 (Or.inr rfl)]
    rw [show sgrEventType cb 109 = MouseEventType.MouseRelease from by
      unfold sgrEventType; rw [if_pos rfl]]

end Tea

namespace Tea

/-- A model that ignores every message and never issues a command. -/
def idleModel : TeaModel Unit where
  init _ := none
  update _ _ := ((), none)
  view _ := []

/-- A model whose first update immediately issues the quit command. -/
def quitModel : TeaModel Unit where
  init _ := none
  update _ _ := ((), some Msg.quitMsg)
  view _ := []

theorem producerMsgs_append_error (pre : List ReadEvent) (e : String)
    (post : List ReadEvent) (h : ∀ ev ∈ pre, ev.isError = false) :
    producerMsgs (pre ++ ReadEvent.readError e :: post) = producerMsgs pre := by
  induction pre with
  | nil => rfl
  | cons ev rest ih =>
    cases ev with
    | chunk bs =>
      show parseInput bs ++ producerMsgs (rest ++ ReadEvent.readError e :: post) =
        parseInput bs ++ producerMsgs rest
      rw [ih (fun x hx => h x (List.mem_cons_of_mem _ hx))]
    | readError e' =>
      exact absurd (h (ReadEvent.readError e') (List.mem_cons_self _ _)) (by simp [ReadEvent.isError])

/-- C1, counterexample: with raw mode acquired and a single read error on
stdin, the reader goroutine terminates without forwarding anything and `Run`
blocks forever on the message channel — it does not return, and in particular
returns no error. -/
theorem run_read_error_not_returned_cex :
    (run idleModel () {} RawModeResult.ok 80 24 [ReadEvent.readError "stdin closed"]).1 =
      RunOutcome.blocked ∧
    ¬ ∃ e, (run idleModel () {} RawModeResult.ok 80 24 [ReadEvent.readError "stdin closed"]).1 =
      RunOutcome.rawModeError e := by
  refine ⟨rfl, ?_⟩
  rintro ⟨e, he⟩
  rw [show (run idleModel () {} RawModeResult.ok 80 24
      [ReadEvent.readError "stdin closed"]).1 = RunOutcome.blocked from rfl] at he
  exact absurd he (by simp)

/-- C1, amended: when a stdin read fails, the reader goroutine terminates and
sends nothing further — the error itself is never sent, so `Run` behaves
exactly as if the input had ended just before the error: it does not return
the read error (it blocks unless some earlier message made it quit). -/
theorem run_read_error_truncates {σ : Type} (M : TeaModel σ) (m0 : σ) (p : Program)
    (raw : RawModeResult) (w h : Int) (pre : List ReadEvent) (e : String)
    (post : List ReadEvent) (hpre : ∀ ev ∈ pre, ev.isError = false) :
    run M m0 p raw w h (pre ++ ReadEvent.readError e :: post) = run M m0 p raw w h pre := by
  unfold run
  cases raw with
  | fail e' => rfl
  | ok => rw [producerMsgs_append_error pre e post hpre]

/-- Witness for the amended C1 theorem: one good chunk, then a read error
with a trailing chunk that is never decoded. -/
theorem run_read_error_truncates_witness :
    run idleModel () {} RawModeResult.ok 80 24
      [ReadEvent.chunk [97], ReadEvent.readError "stdin closed", ReadEvent.chunk [98]] =
    run idleModel () {} RawModeResult.ok 80 24 [ReadEvent.chunk [97]] :=
  run_read_error_truncates idleModel () {} RawModeResult.ok 80 24
    [ReadEvent.chunk [97]] "stdin closed" [ReadEvent.chunk [98]] (by decide)

end Tea

namespace Tea

theorem runLoop_trace_frames {σ : Type} (M : TeaModel σ) :
    ∀ (msgs : List Msg) (s : σ) (em : Emission), em ∈ (runLoop M s msgs).2 →
      em = Emission.clearScreen ∨ ∃ v, em = Emission.view v := by
  intro msgs
  induction msgs with
  | nil =>
    intro s em hm
    unfold runLoop at hm
    simp at hm
    rcases hm with hm | hm
    · exact Or.inl hm
    · exact Or.inr ⟨_, hm⟩
  | cons msg rest ih =>
    intro s em hm
    unfold runLoop at hm
    dsimp only [] at hm
    split at hm
    · simp at hm
      rcases hm with hm | hm
      · exact Or.inl hm
      · exact Or.inr ⟨_, hm⟩
    · simp at hm
      rcases hm with hm | hm | hm
      · exact Or.inl hm
      · exact Or.inr ⟨_, hm⟩
      · exact ih _ em hm

/-- C2, counterexample: on a producer I/O error `Run` never unwinds, so with
the alt screen enabled the enter sequence was emitted but the exit sequence is
never emitted — the registered teardown does not run in that scenario. -/
theorem run_teardown_blocked_cex :
    Emission.enterAltScreen ∈
      (run idleModel () ⟨true, true⟩ RawModeResult.ok 80 24
        [ReadEvent.readError "stdin closed"]).2 ∧
    ((run idleModel () ⟨true, true⟩ RawModeResult.ok 80 24
        [ReadEvent.readError "stdin closed"]).2).count Emission.exitAltScreen = 0 := by
  exact ⟨by decide, by decide⟩

/-- C2, amended: in the two exit scenarios in which `Run` actually returns —
a raw-mode failure and a normal quit — the teardown is exact: on raw-mode
failure nothing at all is emitted, and on the quit path every teardown escape
code whose enable ran is emitted exactly once and no teardown code is emitted
whose enable never ran.  (On a producer I/O error `Run` never returns and the
registered teardown is never emitted; see the counterexample.) -/
theorem run_teardown_exact {σ : Type} (M : TeaModel σ) (m0 : σ) (p : Program)
    (w h : Int) (events : List ReadEvent) (e : String) :
    (run M m0 p (RawModeResult.fail e) w h events).2 = [] ∧
    (∀ mf : σ, (run M m0 p RawModeResult.ok w h events).1 = RunOutcome.quit mf →
      ((run M m0 p RawModeResult.ok w h events).2.count Emission.enterAltScreen =
          (if p.altScreen then 1 else 0) ∧
       (run M m0 p RawModeResult.ok w h events).2.count Emission.exitAltScreen =
          (if p.altScreen then 1 else 0) ∧
       (run M m0 p RawModeResult.ok w h events).2.count Emission.enableMouseClick =
          (if p.mouseEnabled then 1 else 0) ∧
       (run M m0 p RawModeResult.ok w h events).2.count Emission.disableMouseClick =
          (if p.mouseEnabled then 1 else 0) ∧
       (run M m0 p RawModeResult.ok w h events).2.count Emission.enableMouseSGR =
          (if p.mouseEnabled then 1 else 0) ∧
       (run M m0 p RawModeResult.ok w h events).2.count Emission.disableMouseSGR =
          (if p.mouseEnabled then 1 else 0) ∧
       (run M m0 p RawModeResult.ok w h events).2.count Emission.hideCursor = 1 ∧
       (run M m0 p RawModeResult.ok w h events).2.count Emission.showCursor = 1)) := by
  constructor
  · rfl
  · intro mf hq
    have hframes := runLoop_trace_frames M (producerMsgs events) (runInitState M m0 w h)
    unfold run at hq ⊢
    dsimp only [] at hq ⊢
    unfold runAssemble at hq ⊢
    split at hq
    case h_2 hne =>
      dsimp only [] at hq
      exact absurd hq (hne mf)
    case h_1 mf' heq =>
      have hzero : ∀ em : Emission, em ≠ Emission.clearScreen →
          (∀ v, em ≠ Emission.view v) →
          (runLoop M (runInitState M m0 w h) (producerMsgs events)).2.count em = 0 := by
        intro em h1 h2
        refine List.count_eq_zero.mpr (fun hmem => ?_)
        rcases hframes em hmem with hc | ⟨v, hv⟩
        · exact h1 hc
        · exact h2 v hv
      dsimp only [] at hq ⊢
      refine ⟨?_, ?_, ?_, ?_, ?_, ?_, ?_, ?_⟩ <;>
        (rw [List.count_append, List.count_append, hzero _ (by simp) (by simp)];
          by_cases ha : p.altScreen <;> by_cases hm : p.mouseEnabled <;>
            simp [runSetup, runTeardown, ha, hm, List.count_append, List.count_cons])


/-- Witness for the amended C2 theorem: a quitting run with alt screen and
mouse enabled emits the cursor-restore teardown exactly once. -/
theorem run_teardown_exact_witness :
    (run quitModel () ⟨true, true⟩ RawModeResult.ok 80 24
      [ReadEvent.chunk [97]]).2.count Emission.showCursor = 1 :=
  ((run_teardown_exact quitModel () ⟨true, true⟩ 80 24 [ReadEvent.chunk [97]] "e").2 ()
    (by decide)).2.2.2.2.2.2.2

end Tea

namespace Lipgloss

/-- Witness for C10 at a concrete two-byte string. -/
theorem joinHorizontal_single_witness :
    JoinHorizontal Position.Left [[72, 73]] = [72, 73] :=
  joinHorizontal_single Position.Left [72, 73]

end Lipgloss

namespace Tea

/-- Witness for C5 at the concrete report `ESC[<0;10;5M`. -/
theorem sgr_mouse_decode_witness :
    parseInput (sgrEncode 0 10 5 77) =
      [Msg.mouse ((10 : Int) - 1) ((5 : Int) - 1) (sgrEventTypeSpec 0 77)] :=
  (sgr_mouse_decode.1 0 10 5).1

end Tea
